import Mathlib

/-!
Verification of the pi-messenger coordination core (src/store.ts and
src/crew/utils/verdict.ts) against its natural-language specification.

The TypeScript source is shallowly embedded: file-system state (the claims
and completions JSON files, the registry directory, inbox directories) is
made explicit, JSON objects become association lists preserving insertion
order, and environment-dependent observations (process liveness, file
reads, clock values) become explicit parameters.  Staleness of a claim
depends on the registry and the liveness probe, so the swarm operations
are parametrised by a staleness predicate; the concrete predicate
`isClaimStale` mirrors the source function of the same name.
-/

namespace PiMessenger

/-- A registry file for an agent name, as observed on disk: the file may be
absent, unparseable, or a parsed `AgentRegistration` of which only the
fields used by the embedded operations (pid, sessionId) are kept. -/
inductive RegFile where
  | absent
  | malformed
  | reg (pid : Nat) (sessionId : String)
deriving DecidableEq

/-- Entry of `claims.json` for one (spec, taskId): src/store.ts `ClaimEntry`. -/
structure ClaimEntry where
  agent : String
  sessionId : String
  pid : Nat
  claimedAt : String
  reason : Option String
deriving DecidableEq

/-- Entry of `completions.json` for one (spec, taskId): src/store.ts `CompletionEntry`. -/
structure CompletionEntry where
  completedBy : String
  completedAt : String
  notes : Option String
deriving DecidableEq

/-- Tasks claimed within one spec, keyed by taskId (insertion-ordered JSON object). -/
abbrev SpecClaims := List (String × ClaimEntry)

/-- The whole `claims.json`: spec path to its claimed tasks. -/
abbrev AllClaims := List (String × SpecClaims)

/-- Completions within one spec, keyed by taskId. -/
abbrev SpecCompletions := List (String × CompletionEntry)

/-- The whole `completions.json`. -/
abbrev AllCompletions := List (String × SpecCompletions)

/-- src/store.ts `isClaimStale`: a claim is stale when its PID is dead, or no
registration file exists for the claiming agent, or that file is
unreadable, or the registered PID is dead, or the registered sessionId
differs from the claim's sessionId. -/
def isClaimStale (alive : Nat → Bool) (registry : String → RegFile)
    (claim : ClaimEntry) : Bool :=
  if !alive claim.pid then true
  else
    match registry claim.agent with
    | RegFile.absent => true
    | RegFile.malformed => true
    | RegFile.reg rpid rsid =>
      if !alive rpid then true else !(rsid == claim.sessionId)

/-- src/store.ts `filterStaleClaims`: rebuild the map keeping only non-stale
entries, dropping spec buckets that end up empty. -/
def filterStaleClaims (stale : ClaimEntry → Bool) : AllClaims → AllClaims
  | [] => []
  | (spec, tasks) :: rest =>
    let tasks' := tasks.filter (fun q => !stale q.2)
    if tasks'.isEmpty then filterStaleClaims stale rest
    else (spec, tasks') :: filterStaleClaims stale rest

/-- src/store.ts `cleanupStaleClaims`: delete stale entries in place,
counting deletions, and delete spec buckets left empty.  Functionally the
resulting map together with the number of removed entries. -/
def cleanupStaleClaims (stale : ClaimEntry → Bool) : AllClaims → AllClaims × Nat
  | [] => ([], 0)
  | (spec, tasks) :: rest =>
    let tasks' := tasks.filter (fun q => !stale q.2)
    let removedHere := (tasks.filter (fun q => stale q.2)).length
    let r := cleanupStaleClaims stale rest
    (if tasks'.isEmpty then r.1 else (spec, tasks') :: r.1, removedHere + r.2)

/-- src/store.ts `findAgentClaim`: first (spec, taskId) whose entry names the
given agent, scanning specs and tasks in object order. -/
def findAgentClaim : AllClaims → String → Option (String × String)
  | [], _ => none
  | (spec, tasks) :: rest, agent =>
    match tasks.find? (fun q => q.2.agent == agent) with
    | some q => some (spec, q.1)
    | none => findAgentClaim rest agent

/-- JS `claims[spec]?.[taskId]`: look up the bucket for `spec`, then the
entry for `taskId`. -/
def lookupClaim (claims : AllClaims) (spec taskId : String) : Option ClaimEntry :=
  match claims.find? (fun b => b.1 == spec) with
  | none => none
  | some b => (b.2.find? (fun q => q.1 == taskId)).map (fun q => q.2)

/-- JS `completions[spec]?.[taskId]`. -/
def lookupCompletion (completions : AllCompletions) (spec taskId : String) :
    Option CompletionEntry :=
  match completions.find? (fun b => b.1 == spec) with
  | none => none
  | some b => (b.2.find? (fun q => q.1 == taskId)).map (fun q => q.2)

/-- JS `if (!claims[spec]) claims[spec] = {}; claims[spec][taskId] = e`:
append the entry to the existing bucket for `spec` (new keys are appended
in JS object order), or append a fresh bucket. -/
def insertClaim : AllClaims → String → String → ClaimEntry → AllClaims
  | [], spec, taskId, e => [(spec, [(taskId, e)])]
  | (s, ts) :: rest, spec, taskId, e =>
    if s == spec then (s, ts ++ [(taskId, e)]) :: rest
    else (s, ts) :: insertClaim rest spec taskId e

/-- JS `if (!completions[spec]) completions[spec] = {}; completions[spec][taskId] = c`. -/
def insertCompletion : AllCompletions → String → String → CompletionEntry → AllCompletions
  | [], spec, taskId, c => [(spec, [(taskId, c)])]
  | (s, ts) :: rest, spec, taskId, c =>
    if s == spec then (s, ts ++ [(taskId, c)]) :: rest
    else (s, ts) :: insertCompletion rest spec taskId c

/-- JS `delete claims[spec][taskId]; if empty delete claims[spec]`: remove
the entry from the bucket for `spec`, dropping the bucket when it empties. -/
def removeTask : AllClaims → String → String → AllClaims
  | [], _, _ => []
  | (s, ts) :: rest, spec, taskId =>
    if s == spec then
      let ts' := ts.filter (fun q => !(q.1 == taskId))
      if ts'.isEmpty then removeTask rest spec taskId
      else (s, ts') :: removeTask rest spec taskId
    else (s, ts) :: removeTask rest spec taskId

/-- src/store.ts `ClaimResult`: the three possible results of `claimTask`. -/
inductive ClaimResult where
  | success (claimedAt : String)
  | already_claimed (conflict : ClaimEntry)
  | already_have_claim (spec taskId : String)
deriving DecidableEq

/-- src/store.ts `claimTask` (body run under the swarm lock): read claims,
purge stale entries, refuse when the agent already holds a claim or the
task is claimed, otherwise record the new claim.  Returns the result
together with the `claims.json` content left on disk: cleaned claims are
written back when the purge removed anything even on failure. -/
def claimTask (stale : ClaimEntry → Bool) (claims : AllClaims)
    (specPath taskId agent sessionId : String) (pid : Nat) (now : String)
    (reason : Option String) : ClaimResult × AllClaims :=
  let c := cleanupStaleClaims stale claims
  match findAgentClaim c.1 agent with
  | some st =>
    (ClaimResult.already_have_claim st.1 st.2, if c.2 > 0 then c.1 else claims)
  | none =>
    match lookupClaim c.1 specPath taskId with
    | some conflict =>
      (ClaimResult.already_claimed conflict, if c.2 > 0 then c.1 else claims)
    | none =>
      let newClaim : ClaimEntry :=
        { agent := agent, sessionId := sessionId, pid := pid,
          claimedAt := now, reason := reason }
      (ClaimResult.success now, insertClaim c.1 specPath taskId newClaim)

/-- src/store.ts `UnclaimResult`. -/
inductive UnclaimResult where
  | success
  | not_claimed
  | not_your_claim (claimedBy : String)
deriving DecidableEq

/-- src/store.ts `unclaimTask` (body run under the swarm lock). -/
def unclaimTask (stale : ClaimEntry → Bool) (claims : AllClaims)
    (specPath taskId agent : String) : UnclaimResult × AllClaims :=
  let c := cleanupStaleClaims stale claims
  match lookupClaim c.1 specPath taskId with
  | none => (UnclaimResult.not_claimed, if c.2 > 0 then c.1 else claims)
  | some claim =>
    if !(claim.agent == agent) then
      (UnclaimResult.not_your_claim claim.agent, if c.2 > 0 then c.1 else claims)
    else (UnclaimResult.success, removeTask c.1 specPath taskId)

/-- src/store.ts `CompleteResult`. -/
inductive CompleteResult where
  | success (completedAt : String)
  | not_claimed
  | not_your_claim (claimedBy : String)
  | already_completed (completion : CompletionEntry)
deriving DecidableEq

/-- A write of one of the two shared swarm files, in the order performed. -/
inductive WriteEv where
  | completions (content : AllCompletions)
  | claims (content : AllClaims)
deriving DecidableEq

/-- src/store.ts `completeTask` (body run under the swarm lock): completions
take precedence, then the claim must exist and belong to the caller; on
success the claim is deleted from the map, the completion inserted, and
the completions file is written before the claims file.  Returns the
result, the final claims and completions contents, and the ordered list
of file writes performed. -/
def completeTask (stale : ClaimEntry → Bool) (claims : AllClaims)
    (completions : AllCompletions) (specPath taskId agent now : String)
    (notes : Option String) :
    CompleteResult × AllClaims × AllCompletions × List WriteEv :=
  let c := cleanupStaleClaims stale claims
  match lookupCompletion completions specPath taskId with
  | some existing =>
    (CompleteResult.already_completed existing,
     if c.2 > 0 then c.1 else claims, completions,
     if c.2 > 0 then [WriteEv.claims c.1] else [])
  | none =>
    match lookupClaim c.1 specPath taskId with
    | none =>
      (CompleteResult.not_claimed, if c.2 > 0 then c.1 else claims, completions,
       if c.2 > 0 then [WriteEv.claims c.1] else [])
    | some claim =>
      if !(claim.agent == agent) then
        (CompleteResult.not_your_claim claim.agent,
         if c.2 > 0 then c.1 else claims, completions,
         if c.2 > 0 then [WriteEv.claims c.1] else [])
      else
        let claims' := removeTask c.1 specPath taskId
        let completion : CompletionEntry :=
          { completedBy := agent, completedAt := now, notes := notes }
        let completions' := insertCompletion completions specPath taskId completion
        (CompleteResult.success now, claims', completions',
         [WriteEv.completions completions', WriteEv.claims claims'])

/-- Apply one file write to the on-disk pair (claims, completions). -/
def applyWrite (disk : AllClaims × AllCompletions) : WriteEv → AllClaims × AllCompletions
  | WriteEv.completions c => (disk.1, c)
  | WriteEv.claims k => (k, disk.2)

/-- Apply a sequence of file writes in order. -/
def applyWrites (disk : AllClaims × AllCompletions) (evs : List WriteEv) :
    AllClaims × AllCompletions :=
  evs.foldl applyWrite disk

/-- One swarm mutation, for reasoning about sequences of operations. -/
inductive SwarmOp where
  | claim (spec taskId agent sessionId : String) (pid : Nat) (now : String)
      (reason : Option String)
  | unclaim (spec taskId agent : String)
  | complete (spec taskId agent now : String) (notes : Option String)

/-- Effect of one swarm mutation on the on-disk (claims, completions) pair. -/
def applySwarmOp (stale : ClaimEntry → Bool) (st : AllClaims × AllCompletions) :
    SwarmOp → AllClaims × AllCompletions
  | SwarmOp.claim spec taskId agent sessionId pid now reason =>
    ((claimTask stale st.1 spec taskId agent sessionId pid now reason).2, st.2)
  | SwarmOp.unclaim spec taskId agent =>
    ((unclaimTask stale st.1 spec taskId agent).2, st.2)
  | SwarmOp.complete spec taskId agent now notes =>
    let r := completeTask stale st.1 st.2 spec taskId agent now notes
    (r.2.1, r.2.2.1)

/-- Effect of a sequence of swarm mutations. -/
def applySwarmOps (stale : ClaimEntry → Bool) (st : AllClaims × AllCompletions)
    (ops : List SwarmOp) : AllClaims × AllCompletions :=
  ops.foldl (applySwarmOp stale) st

/-- The claims map records entry `e` for (spec, taskId): some bucket carries
the spec key and contains the pair.  (JSON objects have unique keys; the
definition does not assume it.) -/
def ClaimMem (claims : AllClaims) (spec taskId : String) (e : ClaimEntry) : Prop :=
  ∃ b ∈ claims, b.1 = spec ∧ (taskId, e) ∈ b.2

instance (claims : AllClaims) (spec taskId : String) (e : ClaimEntry) :
    Decidable (ClaimMem claims spec taskId e) := by
  unfold ClaimMem; infer_instance

/-- Number of non-stale entries naming `agent`, over all specs. -/
def nonStaleClaimCount (stale : ClaimEntry → Bool) (agent : String)
    (claims : AllClaims) : Nat :=
  (claims.map (fun b => (b.2.filter
    (fun q => q.2.agent == agent && !stale q.2)).length)).sum

/-! Swarm lock acquisition: src/store.ts `withSwarmLock`, lines 94-150.  The
loop's interaction with the file system at each iteration is abstracted as
an observation: the result of `statSync` on `swarm.lock` (its age in ms,
or none when stat fails), the PID read from the lock file (none when the
read fails or the content is not a number; `parseInt` of garbage is falsy
and treated like a dead PID), and the outcome of the exclusive create. -/

/-- src/store.ts `LOCK_STALE_MS`. -/
def LOCK_STALE_MS : Int := 10000

/-- `maxRetries` in `withSwarmLock`. -/
def lockMaxRetries : Nat := 50

/-- `retryDelay` in `withSwarmLock`, in milliseconds. -/
def lockRetryDelay : Nat := 100

/-- Outcome of the exclusive `openSync(..., O_CREAT | O_EXCL | O_RDWR)`. -/
inductive CreateOutcome where
  | ok
  | eexist
  | otherErr
deriving DecidableEq

/-- What one iteration of the lock loop observes on the file system. -/
structure LockObs where
  statAge : Option Int
  content : Option Nat
  create : CreateOutcome
deriving DecidableEq

/-- The stale-lock removal decision of `withSwarmLock`: an existing lock is
unlinked when its mtime age exceeds `LOCK_STALE_MS` and the PID it holds
is dead (an unreadable or non-numeric or zero PID counts as dead). -/
def lockStaleRemoval (alive : Nat → Bool) (o : LockObs) : Bool :=
  match o.statAge with
  | none => false
  | some age =>
    decide (age > LOCK_STALE_MS) &&
      (match o.content with
       | none => true
       | some p => p == 0 || !alive p)

/-- What one iteration of the lock loop did: whether it removed a stale
lock, and how its create attempt ended. -/
structure LockIter where
  removedStale : Bool
  create : CreateOutcome
deriving DecidableEq

/-- How the acquisition loop ended. -/
inductive AcquireOutcome where
  | acquired
  | lockFailed
  | ioError
deriving DecidableEq

/-- The retry loop of `withSwarmLock`, from iteration `i` with `fuel`
iterations left: attempt stale removal, then the exclusive create; on
`EEXIST` sleep `retryDelay` ms and retry, failing on the last allowed
iteration; other create errors propagate. -/
def withSwarmLockGo (alive : Nat → Bool) (env : Nat → LockObs) :
    Nat → Nat → AcquireOutcome × List LockIter
  | _, 0 => (AcquireOutcome.lockFailed, [])
  | i, fuel + 1 =>
    let o := env i
    let iter : LockIter := { removedStale := lockStaleRemoval alive o, create := o.create }
    match o.create with
    | CreateOutcome.ok => (AcquireOutcome.acquired, [iter])
    | CreateOutcome.otherErr => (AcquireOutcome.ioError, [iter])
    | CreateOutcome.eexist =>
      let r := withSwarmLockGo alive env (i + 1) fuel
      (r.1, iter :: r.2)

/-- Lock acquisition in src/store.ts `withSwarmLock`: the retry loop run
from iteration 0 with `maxRetries` iterations. -/
def withSwarmLockAcquire (alive : Nat → Bool) (env : Nat → LockObs) :
    AcquireOutcome × List LockIter :=
  withSwarmLockGo alive env 0 lockMaxRetries

/-! Inbox processing: src/store.ts `processAllPendingMessages`, lines
933-985 (the body of one processing pass, with `state.registered` true and
the re-entrancy guard not engaged). -/

/-- src/lib.ts `AgentMailMessage` (fields as written by `sendMessageToAgent`;
the JSON `from` field is called `fromAgent` because `from` is reserved). -/
structure AgentMailMessage where
  id : String
  fromAgent : String
  toAgent : String
  text : String
  timestamp : String
  replyTo : Option String
deriving DecidableEq

/-- What handling one inbox file can come to: the read fails, the JSON
parse fails, the delivery callback throws on the parsed message, or the
delivery callback succeeds. -/
inductive MsgOutcome where
  | readFail
  | parseFail
  | deliverFail (msg : AgentMailMessage)
  | ok (msg : AgentMailMessage)
deriving DecidableEq

/-- One file of the inbox directory with its handling outcome. -/
structure InboxFile where
  name : String
  outcome : MsgOutcome
deriving DecidableEq

/-- Observable event of a processing pass: the delivery callback was
invoked on a message from a file (with its success), or a file unlink was
performed. -/
inductive PassEvent where
  | callback (file : String) (msg : AgentMailMessage) (ok : Bool)
  | deleted (file : String)
deriving DecidableEq

/-- Lexicographic comparison of strings by character code, the order
`Array.prototype.sort()` applies to the file names. -/
def charsLe : List Char → List Char → Bool
  | [], _ => true
  | _ :: _, [] => false
  | a :: as, b :: bs =>
    if a.toNat < b.toNat then true
    else if b.toNat < a.toNat then false
    else charsLe as bs

/-- String comparison used for sorting inbox file names. -/
def nameLe (a b : String) : Bool := charsLe a.data b.data

/-- JS `endsWith(".json")` on a file name. -/
def isJsonName (name : String) : Bool := ".json".data.isSuffixOf name.data

/-- The files a pass works through: the `.json` files of the inbox listing,
sorted by name (JS `Array.prototype.sort()` with the default string
comparator). -/
def sortedJsonFiles (inbox : List InboxFile) : List InboxFile :=
  (inbox.filter (fun f => isJsonName f.name)).insertionSort
    (fun a b => nameLe a.name b.name = true)

/-- Events produced for one file: read, parse, deliver, then unlink; on any
failure along the way the file is unlinked anyway. -/
def fileEvents (f : InboxFile) : List PassEvent :=
  match f.outcome with
  | MsgOutcome.readFail => [PassEvent.deleted f.name]
  | MsgOutcome.parseFail => [PassEvent.deleted f.name]
  | MsgOutcome.deliverFail m =>
    [PassEvent.callback f.name m false, PassEvent.deleted f.name]
  | MsgOutcome.ok m =>
    [PassEvent.callback f.name m true, PassEvent.deleted f.name]

/-- One processing pass of src/store.ts `processAllPendingMessages`: list
the `.json` files, sort them, and handle each in order. -/
def processAllPendingMessages (inbox : List InboxFile) : List PassEvent :=
  (sortedJsonFiles inbox).flatMap fileEvents

/-! Messaging: src/store.ts `sendMessageToAgent` (lines 987-1011) and
`validateTargetAgent` (lines 1091-1116). -/

/-- The parts of the shared directory sendMessageToAgent and
validateTargetAgent touch: the registry and the per-name inbox
directories with their message files. -/
structure World where
  registry : String → RegFile
  inboxDirs : String → Bool
  inboxFiles : String → List (String × AgentMailMessage)

/-- src/store.ts `sendMessageToAgent`: ensure the target inbox directory
exists and write one message file into it.  The generated UUID, timestamp
and file name are parameters; nothing is looked up in the registry. -/
def sendMessageToAgent (w : World) (fromName toName text : String)
    (replyTo : Option String) (uuid timestamp fileName : String) :
    AgentMailMessage × World :=
  let msg : AgentMailMessage :=
    { id := uuid, fromAgent := fromName, toAgent := toName, text := text,
      timestamp := timestamp, replyTo := replyTo }
  (msg,
   { w with
     inboxDirs := fun n => if n = toName then true else w.inboxDirs n,
     inboxFiles := fun n =>
       if n = toName then w.inboxFiles toName ++ [(fileName, msg)] else w.inboxFiles n })

/-- src/store.ts `TargetValidation` error discriminants. -/
inductive TargetValidation where
  | valid
  | invalid_name
  | not_found
  | not_active
  | invalid_registration
deriving DecidableEq

/-- src/store.ts `validateTargetAgent`: name validity, then existence of the
registration, then parseability, then liveness; a dead registration is
unlinked.  `validName` abstracts lib.ts `isValidAgentName`. -/
def validateTargetAgent (validName : String → Bool) (alive : Nat → Bool)
    (w : World) (toName : String) : TargetValidation × World :=
  if !validName toName then (TargetValidation.invalid_name, w)
  else
    match w.registry toName with
    | RegFile.absent => (TargetValidation.not_found, w)
    | RegFile.malformed => (TargetValidation.invalid_registration, w)
    | RegFile.reg p _ =>
      if !alive p then
        (TargetValidation.not_active,
         { w with registry := fun n => if n = toName then RegFile.absent else w.registry n })
      else (TargetValidation.valid, w)

/-! Rename: src/store.ts `renameAgent`, lines 468-597. -/

/-- src/store.ts `RenameResult` error discriminants. -/
inductive RenameError where
  | not_registered
  | invalid_name
  | name_taken
  | same_name
  | race_lost
deriving DecidableEq

/-- src/store.ts `RenameResult`. -/
inductive RenameResult where
  | success (oldName newName : String)
  | failure (error : RenameError)
deriving DecidableEq

/-- Environment a `renameAgent` call observes: the caller's registration
state, validity of the requested name (lib.ts `isValidAgentName`), the
record currently on disk under the new name, the messages drained from
the caller's inbox, whether the write of the new record succeeds, and
what the ownership-verification read returns. -/
structure RenameEnv where
  registered : Bool
  validNewName : Bool
  currentName : String
  selfPid : Nat
  alive : Nat → Bool
  newNameRecord : RegFile
  pendingMsgs : List AgentMailMessage
  writeNewOk : Bool
  verifyRead : RegFile
  newInboxExists : Bool
  newInboxFiles : List String

/-- Observable side effects of `renameAgent`, in order. -/
inductive RenameEv where
  | delivered (msg : AgentMailMessage)
  | wroteNewReg (name : String)
  | deletedOldReg (name : String)
  | removedStaleInboxFile (file : String)
  | ensuredNewInbox (name : String)
  | removedOldInbox (name : String)
deriving DecidableEq

/-- The live-collision test of `renameAgent` on the record found under the
new name: the file exists, parses, its PID is alive and is not the
caller's own. -/
def newNameTaken (alive : Nat → Bool) (selfPid : Nat) : RegFile → Bool
  | RegFile.reg p _ => alive p && !(p == selfPid)
  | RegFile.absent => false
  | RegFile.malformed => false

/-- src/store.ts `renameAgent`: guard checks, inbox drain, write of the new
record, ownership verification, then migration.  Returns the result, the
ordered side effects, and the agent name held in memory afterwards.  (A
failing write of the new record returns `invalid_name`, as in the
source.) -/
def renameAgent (env : RenameEnv) (newName : String) :
    RenameResult × List RenameEv × String :=
  if !env.registered then
    (RenameResult.failure RenameError.not_registered, [], env.currentName)
  else if !env.validNewName then
    (RenameResult.failure RenameError.invalid_name, [], env.currentName)
  else if newName == env.currentName then
    (RenameResult.failure RenameError.same_name, [], env.currentName)
  else
    if newNameTaken env.alive env.selfPid env.newNameRecord then
      (RenameResult.failure RenameError.name_taken, [], env.currentName)
    else
      let drained := env.pendingMsgs.map RenameEv.delivered
      if !env.writeNewOk then
        (RenameResult.failure RenameError.invalid_name, drained, env.currentName)
      else
        let written := drained ++ [RenameEv.wroteNewReg newName]
        match env.verifyRead with
        | RegFile.reg p _ =>
          if p == env.selfPid then
            (RenameResult.success env.currentName newName,
             written ++ [RenameEv.deletedOldReg env.currentName]
               ++ (if env.newInboxExists then
                     (env.newInboxFiles.filter isJsonName).map
                       RenameEv.removedStaleInboxFile
                   else [])
               ++ [RenameEv.ensuredNewInbox newName,
                   RenameEv.removedOldInbox env.currentName],
             newName)
          else (RenameResult.failure RenameError.race_lost, written, env.currentName)
        | _ => (RenameResult.failure RenameError.race_lost, written, env.currentName)

/-! Name probing: src/store.ts `findAvailableName`, lines 248-276. -/

/-- The loop over alternative names `base2`..`base99`: the first alternative
whose registry file is absent, unparseable, or holds a dead PID.  The own
PID is not consulted here. -/
def findAltName (alive : Nat → Bool) (registry : String → RegFile)
    (baseName : String) : List Nat → Option String
  | [] => none
  | i :: rest =>
    let altName := baseName ++ toString i
    match registry altName with
    | RegFile.absent => some altName
    | RegFile.malformed => some altName
    | RegFile.reg p _ =>
      if !alive p then some altName
      else findAltName alive registry baseName rest

/-- src/store.ts `findAvailableName`: the base name itself is available when
no record exists, the record is unparseable, its PID is dead, or its PID
is the calling process's own; otherwise `base2`..`base99` are probed. -/
def findAvailableName (alive : Nat → Bool) (selfPid : Nat)
    (registry : String → RegFile) (baseName : String) : Option String :=
  match registry baseName with
  | RegFile.absent => some baseName
  | RegFile.malformed => some baseName
  | RegFile.reg p _ =>
    if !alive p || p == selfPid then some baseName
    else findAltName alive registry baseName ((List.range 98).map (fun k => k + 2))

/-! Verdict parsing: src/crew/utils/verdict.ts `parseVerdict`.  The three
regular expressions are translated into explicit scanners over the
character list of the input.  JS regex semantics are kept: `match` finds
the leftmost position where the whole pattern matches, `\s*` before a
non-space literal skips the maximal whitespace run, `\s*\n` lands on the
last newline of a whitespace run, `.` does not cross line terminators,
and the lazy `[\s\S]*?(?=\n##|$)` captures up to the first `\n##` or the
end of input. -/

lemma claimMem_nil {s t : String} {e : ClaimEntry} : ¬ClaimMem [] s t e := by
  simp [ClaimMem]

lemma claimMem_cons {b : String × SpecClaims} {rest : AllClaims} {s t : String}
    {e : ClaimEntry} :
    ClaimMem (b :: rest) s t e ↔ (b.1 = s ∧ (t, e) ∈ b.2) ∨ ClaimMem rest s t e := by
  constructor
  · rintro ⟨x, hx, h1, h2⟩
    rcases List.mem_cons.mp hx with rfl | hx'
    · exact Or.inl ⟨h1, h2⟩
    · exact Or.inr ⟨x, hx', h1, h2⟩
  · rintro (⟨h1, h2⟩ | ⟨x, hx, h1, h2⟩)
    · exact ⟨b, List.mem_cons_self _ _, h1, h2⟩
    · exact ⟨x, List.mem_cons_of_mem _ hx, h1, h2⟩

lemma cleanup_fst (stale : ClaimEntry → Bool) (claims : AllClaims) :
    (cleanupStaleClaims stale claims).1 = filterStaleClaims stale claims := by
  induction claims with
  | nil => rfl
  | cons b rest ih =>
    obtain ⟨spec, tasks⟩ := b
    by_cases h : (tasks.filter (fun q => !stale q.2)).isEmpty <;>
      simp [cleanupStaleClaims, filterStaleClaims, h, ih]

lemma claimMem_filterStale {stale : ClaimEntry → Bool} {claims : AllClaims}
    {s t : String} {e : ClaimEntry} :
    ClaimMem (filterStaleClaims stale claims) s t e ↔
      ClaimMem claims s t e ∧ stale e = false := by
  induction claims with
  | nil =>
    simp [filterStaleClaims, ClaimMem]
  | cons b rest ih =>
    obtain ⟨spec, tasks⟩ := b
    by_cases h : (tasks.filter (fun q => !stale q.2)).isEmpty
    · have hall : ∀ q ∈ tasks, stale q.2 = true := by
        intro q hq
        by_contra hst
        have hb : (!stale q.2) = true := by
          cases hs : stale q.2
          · rfl
          · exact absurd hs hst
        have hmem : q ∈ tasks.filter (fun q => !stale q.2) :=
          List.mem_filter.mpr ⟨hq, hb⟩
        rw [List.isEmpty_iff.mp h] at hmem
        exact absurd hmem (List.not_mem_nil q)
      have hred : filterStaleClaims stale ((spec, tasks) :: rest) =
          filterStaleClaims stale rest := by
        simp [filterStaleClaims, h]
      rw [hred, ih, claimMem_cons]
      constructor
      · rintro ⟨hm, hs⟩
        exact ⟨Or.inr hm, hs⟩
      · rintro ⟨hor, hs⟩
        rcases hor with ⟨h1, h2⟩ | hm
        · rw [hall (t, e) h2] at hs
          exact absurd hs (by simp)
        · exact ⟨hm, hs⟩
    · have hred : filterStaleClaims stale ((spec, tasks) :: rest) =
          (spec, tasks.filter (fun q => !stale q.2)) :: filterStaleClaims stale rest := by
        simp [filterStaleClaims, h]
      rw [hred, claimMem_cons, claimMem_cons, ih]
      constructor
      · rintro (⟨h1, h2⟩ | ⟨hm, hs⟩)
        · obtain ⟨hmem, hb⟩ := List.mem_filter.mp h2
          refine ⟨Or.inl ⟨h1, hmem⟩, ?_⟩
          cases hs : stale e
          · rfl
          · rw [show ((t, e) : String × ClaimEntry).2 = e from rfl, hs] at hb
            exact absurd hb (by simp)
        · exact ⟨Or.inr hm, hs⟩
      · rintro ⟨hor, hs⟩
        rcases hor with ⟨h1, h2⟩ | hm
        · refine Or.inl ⟨h1, List.mem_filter.mpr ⟨h2, ?_⟩⟩
          rw [show ((t, e) : String × ClaimEntry).2 = e from rfl, hs]
          rfl
        · exact Or.inr ⟨hm, hs⟩

lemma filterStale_idem (stale : ClaimEntry → Bool) (claims : AllClaims) :
    filterStaleClaims stale (filterStaleClaims stale claims) =
      filterStaleClaims stale claims := by
  induction claims with
  | nil => rfl
  | cons b rest ih =>
    obtain ⟨spec, tasks⟩ := b
    by_cases h : (tasks.filter (fun q => !stale q.2)).isEmpty
    · simp only [filterStaleClaims, h, if_true, ih]
    · have hff : (tasks.filter (fun q => !stale q.2)).filter
          (fun q => !stale q.2) = tasks.filter (fun q => !stale q.2) := by
        rw [List.filter_filter]
        apply List.filter_congr
        intro q _
        cases hq : stale q.2 <;> simp [hq]
      have hred : filterStaleClaims stale ((spec, tasks) :: rest) =
          (spec, tasks.filter (fun q => !stale q.2)) :: filterStaleClaims stale rest := by
        simp [filterStaleClaims, h]
      rw [hred]
      have hred2 : filterStaleClaims stale
          ((spec, tasks.filter (fun q => !stale q.2)) :: filterStaleClaims stale rest) =
          (spec, tasks.filter (fun q => !stale q.2)) ::
            filterStaleClaims stale (filterStaleClaims stale rest) := by
        simp [filterStaleClaims, hff, h]
      rw [hred2, ih]

lemma findAgentClaim_eq_none {claims : AllClaims} {agent : String} :
    findAgentClaim claims agent = none ↔
      ∀ s t e, ClaimMem claims s t e → ¬e.agent = agent := by
  induction claims with
  | nil =>
    simp only [findAgentClaim, true_iff]
    intro s t e h
    exact absurd h claimMem_nil
  | cons b rest ih =>
    obtain ⟨spec, tasks⟩ := b
    simp only [findAgentClaim]
    cases hf : tasks.find? (fun q => q.2.agent == agent) with
    | some q =>
      refine iff_of_false (by simp) ?_
      intro hall
      have hq : q ∈ tasks := List.mem_of_find?_eq_some hf
      have hag : q.2.agent = agent := by simpa using List.find?_some hf
      exact absurd hag
        (hall spec q.1 q.2 ⟨(spec, tasks), List.mem_cons_self _ _, rfl, by simpa using hq⟩)
    | none =>
      rw [ih]
      have hnone : ∀ q ∈ tasks, ¬(q.2.agent == agent) = true :=
        List.find?_eq_none.mp hf
      constructor
      · intro hrest s t e hm
        rcases claimMem_cons.mp hm with ⟨h1, h2⟩ | hm'
        · intro he
          exact hnone (t, e) h2 (by simpa using he)
        · exact hrest s t e hm'
      · intro hall s t e hm
        exact hall s t e (claimMem_cons.mpr (Or.inr hm))

lemma findAgentClaim_eq_some {claims : AllClaims} {agent s t : String} :
    findAgentClaim claims agent = some (s, t) →
      ∃ e, ClaimMem claims s t e ∧ e.agent = agent := by
  induction claims with
  | nil => intro h; simp [findAgentClaim] at h
  | cons b rest ih =>
    obtain ⟨spec, tasks⟩ := b
    simp only [findAgentClaim]
    cases hf : tasks.find? (fun q => q.2.agent == agent) with
    | some q =>
      intro h
      have hp : spec = s ∧ q.1 = t := by
        have h2 := Option.some.inj h
        exact ⟨congrArg Prod.fst h2, congrArg Prod.snd h2⟩
      refine ⟨q.2, ⟨(spec, tasks), List.mem_cons_self _ _, hp.1, ?_⟩, ?_⟩
      · have hq : q ∈ tasks := List.mem_of_find?_eq_some hf
        rw [← hp.2]
        simpa using hq
      · simpa using List.find?_some hf
    | none =>
      intro h
      obtain ⟨e, hm, he⟩ := ih h
      exact ⟨e, claimMem_cons.mpr (Or.inr hm), he⟩

lemma lookupClaim_some_mem {claims : AllClaims} {s t : String} {e : ClaimEntry} :
    lookupClaim claims s t = some e → ClaimMem claims s t e := by
  unfold lookupClaim
  cases hb : claims.find? (fun b => b.1 == s) with
  | none => intro h; simp at h
  | some b =>
    intro h
    rw [Option.map_eq_some'] at h
    obtain ⟨q, hq, rfl⟩ := h
    refine ⟨b, List.mem_of_find?_eq_some hb, ?_, ?_⟩
    · simpa using List.find?_some hb
    · have h1 : q.1 = t := by simpa using List.find?_some hq
      have h2 : q ∈ b.2 := List.mem_of_find?_eq_some hq
      rw [← h1]
      simpa using h2

lemma count_filterStale (stale : ClaimEntry → Bool) (agent : String)
    (claims : AllClaims) :
    nonStaleClaimCount stale agent (filterStaleClaims stale claims) =
      nonStaleClaimCount stale agent claims := by
  induction claims with
  | nil => rfl
  | cons b rest ih =>
    obtain ⟨spec, tasks⟩ := b
    by_cases h : (tasks.filter (fun q => !stale q.2)).isEmpty
    · have hnil : tasks.filter (fun q => !stale q.2) = [] := List.isEmpty_iff.mp h
      have hz : tasks.filter (fun q => q.2.agent == agent && !stale q.2) = [] := by
        rw [List.filter_eq_nil_iff]
        intro q hq
        have hq2 := List.filter_eq_nil_iff.mp hnil q hq
        cases hs : stale q.2
        · exact absurd (by simp [hs]) hq2
        · simp [hs]
      simp [filterStaleClaims, nonStaleClaimCount, h, hz] at *
      exact ih
    · have hred : filterStaleClaims stale ((spec, tasks) :: rest) =
          (spec, tasks.filter (fun q => !stale q.2)) :: filterStaleClaims stale rest := by
        simp [filterStaleClaims, h]
      have hff : (tasks.filter (fun q => !stale q.2)).filter
          (fun q => q.2.agent == agent && !stale q.2) =
          tasks.filter (fun q => q.2.agent == agent && !stale q.2) := by
        rw [List.filter_filter]
        apply List.filter_congr
        intro q _
        cases hs : stale q.2 <;> simp [hs]
      rw [hred]
      simp only [nonStaleClaimCount, List.map_cons, List.sum_cons] at *
      rw [hff, ih]

lemma count_removeTask_le (stale : ClaimEntry → Bool) (agent : String)
    (claims : AllClaims) (spec taskId : String) :
    nonStaleClaimCount stale agent (removeTask claims spec taskId) ≤
      nonStaleClaimCount stale agent claims := by
  induction claims with
  | nil => simp [removeTask]
  | cons b rest ih =>
    obtain ⟨s, ts⟩ := b
    by_cases hs : (s == spec) = true
    · by_cases he : (ts.filter (fun q => !(q.1 == taskId))).isEmpty
      · have hred : removeTask ((s, ts) :: rest) spec taskId =
            removeTask rest spec taskId := by
          simp [removeTask, hs, he]
        rw [hred]
        calc nonStaleClaimCount stale agent (removeTask rest spec taskId) ≤
            nonStaleClaimCount stale agent rest := ih
          _ ≤ _ := by simp [nonStaleClaimCount]
      · have hred : removeTask ((s, ts) :: rest) spec taskId =
            (s, ts.filter (fun q => !(q.1 == taskId))) :: removeTask rest spec taskId := by
          simp [removeTask, hs, he]
        rw [hred]
        simp only [nonStaleClaimCount, List.map_cons, List.sum_cons]
        have hsub : List.Sublist
            ((ts.filter (fun q => !(q.1 == taskId))).filter
              (fun q => q.2.agent == agent && !stale q.2))
            (ts.filter (fun q => q.2.agent == agent && !stale q.2)) :=
          List.Sublist.filter _ (List.filter_sublist ts)
        exact Nat.add_le_add hsub.length_le ih
    · have hred : removeTask ((s, ts) :: rest) spec taskId =
          (s, ts) :: removeTask rest spec taskId := by
        simp [removeTask, hs]
      rw [hred]
      simp only [nonStaleClaimCount, List.map_cons, List.sum_cons]
      exact Nat.add_le_add_left ih _

lemma count_insertClaim (stale : ClaimEntry → Bool) (agent : String)
    (claims : AllClaims) (spec taskId : String) (e : ClaimEntry) :
    nonStaleClaimCount stale agent (insertClaim claims spec taskId e) =
      nonStaleClaimCount stale agent claims +
        (if e.agent == agent && !stale e then 1 else 0) := by
  induction claims with
  | nil =>
    simp only [insertClaim, nonStaleClaimCount, List.map_cons, List.map_nil,
      List.sum_cons, List.sum_nil]
    by_cases hp : (e.agent == agent && !stale e) = true <;>
      simp [List.filter, hp]
  | cons b rest ih =>
    obtain ⟨s, ts⟩ := b
    by_cases hs : (s == spec) = true
    · have hred : insertClaim ((s, ts) :: rest) spec taskId e =
          (s, ts ++ [(taskId, e)]) :: rest := by
        simp [insertClaim, hs]
      rw [hred]
      simp only [nonStaleClaimCount, List.map_cons, List.sum_cons,
        List.filter_append, List.length_append]
      by_cases hp : (e.agent == agent && !stale e) = true <;>
        simp [List.filter, hp, Nat.add_assoc, Nat.add_comm, Nat.add_left_comm]
    · have hred : insertClaim ((s, ts) :: rest) spec taskId e =
          (s, ts) :: insertClaim rest spec taskId e := by
        simp [insertClaim, hs]
      rw [hred]
      simp only [nonStaleClaimCount, List.map_cons, List.sum_cons] at *
      rw [ih]
      omega

lemma count_eq_zero_iff (stale : ClaimEntry → Bool) (agent : String)
    (claims : AllClaims) :
    nonStaleClaimCount stale agent claims = 0 ↔
      ∀ s t e, ClaimMem claims s t e → e.agent = agent → stale e = true := by
  induction claims with
  | nil =>
    simp only [nonStaleClaimCount, List.map_nil, List.sum_nil, true_iff]
    intro s t e h
    exact absurd h claimMem_nil
  | cons b rest ih =>
    obtain ⟨spec, tasks⟩ := b
    simp only [nonStaleClaimCount, List.map_cons, List.sum_cons] at *
    rw [Nat.add_eq_zero, List.length_eq_zero, List.filter_eq_nil_iff, ih]
    constructor
    · rintro ⟨hhead, hrest⟩ s t e hm hag
      rcases claimMem_cons.mp hm with ⟨h1, h2⟩ | hm'
      · have := hhead (t, e) h2
        cases hst : stale e
        · exact absurd (by simp [hag, hst]) this
        · rfl
      · exact hrest s t e hm' hag
    · intro hall
      constructor
      · intro q hq
        intro hp
        simp only [Bool.and_eq_true] at hp
        obtain ⟨hag, hns⟩ := hp
        have : stale q.2 = true :=
          hall spec q.1 q.2
            (claimMem_cons.mpr (Or.inl ⟨rfl, by simpa using hq⟩))
            (by simpa using hag)
        rw [this] at hns
        exact absurd hns (by simp)
      · intro s t e hm hag
        exact hall s t e (claimMem_cons.mpr (Or.inr hm)) hag

lemma count_cleanup (stale : ClaimEntry → Bool) (agent : String)
    (claims : AllClaims) :
    nonStaleClaimCount stale agent (cleanupStaleClaims stale claims).1 =
      nonStaleClaimCount stale agent claims := by
  rw [cleanup_fst, count_filterStale]

lemma count_claimTask_le (stale : ClaimEntry → Bool) (A : String)
    (claims : AllClaims) (sp t ag sid : String) (pid : Nat) (now : String)
    (r : Option String) (h : nonStaleClaimCount stale A claims ≤ 1) :
    nonStaleClaimCount stale A
      (claimTask stale claims sp t ag sid pid now r).2 ≤ 1 := by
  simp only [claimTask]
  cases hf : findAgentClaim (cleanupStaleClaims stale claims).1 ag with
  | some st =>
    by_cases hc : (cleanupStaleClaims stale claims).2 > 0 <;>
      simpa [hc, count_cleanup] using h
  | none =>
    cases hl : lookupClaim (cleanupStaleClaims stale claims).1 sp t with
    | some conflict =>
      by_cases hc : (cleanupStaleClaims stale claims).2 > 0 <;>
        simpa [hc, count_cleanup] using h
    | none =>
      have hz := count_insertClaim stale A (cleanupStaleClaims stale claims).1
        sp t ⟨ag, sid, pid, now, r⟩
      by_cases hp :
          ((⟨ag, sid, pid, now, r⟩ : ClaimEntry).agent == A &&
            !stale ⟨ag, sid, pid, now, r⟩) = true
      · have hag : ag = A := by
          have := (Bool.and_eq_true _ _ ▸ hp).1
          simpa using this
        have hzero : nonStaleClaimCount stale A
            (cleanupStaleClaims stale claims).1 = 0 := by
          rw [count_eq_zero_iff]
          intro s' t' e hm hagent
          exact absurd (hagent.trans hag.symm) (findAgentClaim_eq_none.mp hf s' t' e hm)
        rw [hz, hzero, if_pos hp]
      · rw [hz, if_neg hp, count_cleanup]
        simpa using h

lemma count_unclaimTask_le (stale : ClaimEntry → Bool) (A : String)
    (claims : AllClaims) (sp t ag : String) :
    nonStaleClaimCount stale A (unclaimTask stale claims sp t ag).2 ≤
      nonStaleClaimCount stale A claims := by
  simp only [unclaimTask]
  cases hl : lookupClaim (cleanupStaleClaims stale claims).1 sp t with
  | none =>
    by_cases hc : (cleanupStaleClaims stale claims).2 > 0 <;>
      simp [hc, count_cleanup]
  | some claim =>
    by_cases hag : (!(claim.agent == ag)) = true
    · by_cases hc : (cleanupStaleClaims stale claims).2 > 0 <;>
        simp [hag, hc, count_cleanup]
    · simp only [hag, Bool.false_eq_true, if_false]
      have h1 := count_removeTask_le stale A (cleanupStaleClaims stale claims).1 sp t
      rw [count_cleanup] at h1
      exact h1

lemma count_completeTask_le (stale : ClaimEntry → Bool) (A : String)
    (claims : AllClaims) (comps : AllCompletions) (sp t ag now : String)
    (notes : Option String) :
    nonStaleClaimCount stale A
      (completeTask stale claims comps sp t ag now notes).2.1 ≤
      nonStaleClaimCount stale A claims := by
  simp only [completeTask]
  cases hcomp : lookupCompletion comps sp t with
  | some existing =>
    by_cases hc : (cleanupStaleClaims stale claims).2 > 0 <;>
      simp [hc, count_cleanup]
  | none =>
    cases hl : lookupClaim (cleanupStaleClaims stale claims).1 sp t with
    | none =>
      by_cases hc : (cleanupStaleClaims stale claims).2 > 0 <;>
        simp [hc, count_cleanup]
    | some claim =>
      by_cases hag : (!(claim.agent == ag)) = true
      · by_cases hc : (cleanupStaleClaims stale claims).2 > 0 <;>
          simp [hag, hc, count_cleanup]
      · simp only [hag, Bool.false_eq_true, if_false]
        have h1 := count_removeTask_le stale A (cleanupStaleClaims stale claims).1 sp t
        rw [count_cleanup] at h1
        exact h1

lemma count_applyOp_le (stale : ClaimEntry → Bool) (A : String)
    (st : AllClaims × AllCompletions) (op : SwarmOp)
    (h : nonStaleClaimCount stale A st.1 ≤ 1) :
    nonStaleClaimCount stale A (applySwarmOp stale st op).1 ≤ 1 := by
  cases op with
  | claim sp t ag sid pid now r => exact count_claimTask_le _ _ _ _ _ _ _ _ _ _ h
  | unclaim sp t ag => exact le_trans (count_unclaimTask_le _ _ _ _ _ _) h
  | complete sp t ag now notes =>
    exact le_trans (count_completeTask_le _ _ _ _ _ _ _ _ _) h

lemma count_applyOps_le (stale : ClaimEntry → Bool) (A : String)
    (ops : List SwarmOp) (st : AllClaims × AllCompletions)
    (h : nonStaleClaimCount stale A st.1 ≤ 1) :
    nonStaleClaimCount stale A (applySwarmOps stale st ops).1 ≤ 1 := by
  induction ops generalizing st with
  | nil => exact h
  | cons op rest ih =>
    exact ih (applySwarmOp stale st op) (count_applyOp_le stale A st op h)

lemma lookupCompletion_cons (s : String) (ts : SpecCompletions)
    (rest : AllCompletions) (sp t : String) :
    lookupCompletion ((s, ts) :: rest) sp t =
      if s == sp then (ts.find? (fun q => q.1 == t)).map (fun q => q.2)
      else lookupCompletion rest sp t := by
  unfold lookupCompletion
  by_cases hs : (s == sp) = true <;> simp [List.find?, hs]

lemma lookupCompletion_insert_self (comps : AllCompletions) (sp t : String)
    (c : CompletionEntry) (h : lookupCompletion comps sp t = none) :
    lookupCompletion (insertCompletion comps sp t c) sp t = some c := by
  induction comps with
  | nil =>
    simp [insertCompletion, lookupCompletion, List.find?]
  | cons b rest ih =>
    obtain ⟨s, ts⟩ := b
    rw [lookupCompletion_cons] at h
    by_cases hs : (s == sp) = true
    · rw [if_pos hs] at h
      have hts : ts.find? (fun q => q.1 == t) = none := by
        cases hq : ts.find? (fun q => q.1 == t) with
        | none => rfl
        | some q => rw [hq] at h; simp at h
      have hins : insertCompletion ((s, ts) :: rest) sp t c =
          (s, ts ++ [(t, c)]) :: rest := by
        simp [insertCompletion, hs]
      rw [hins, lookupCompletion_cons, if_pos hs, List.find?_append, hts]
      simp [List.find?]
    · rw [if_neg hs] at h
      have hins : insertCompletion ((s, ts) :: rest) sp t c =
          (s, ts) :: insertCompletion rest sp t c := by
        simp [insertCompletion, hs]
      rw [hins, lookupCompletion_cons, if_neg hs]
      exact ih h

/-! The claim theorems. -/

/-- C1, counterexample: with `completions.json` recording a completion for
("spec.md", "T-7") and no live claim on it, a `claimTask` call by an agent
holding nothing returns `success` — not `already_completed` (a result
`claimTask` cannot even express: `ClaimResult` has no such variant), and
not `already_claimed`. -/
theorem claimTask_on_completed_returns_success_cex :
    lookupCompletion [("spec.md", [("T-7", ⟨"alpha", "t0", none⟩)])] "spec.md" "T-7" =
      some ⟨"alpha", "t0", none⟩ ∧
    (claimTask (fun _ => false) [] "spec.md" "T-7" "beta" "s2" 7 "t1" none).1 =
      ClaimResult.success "t1" := by
  constructor <;> rfl

/-- C1, amended: `claimTask` consults only `claims.json`: when the caller
holds no claim after the stale purge, the call returns `already_claimed`
exactly on a surviving claim for (spec, taskId) and `success` otherwise,
whatever `completions.json` holds; `already_completed` is produced only
by `completeTask` (completions take precedence there), and every
`ClaimResult` is one of `success`, `already_claimed`,
`already_have_claim`. -/
theorem claimTask_ignores_completions (stale : ClaimEntry → Bool)
    (claims : AllClaims) (comps : AllCompletions) (sp t ag sid : String)
    (pid : Nat) (now : String) (r : Option String) (notes : Option String)
    (hno : findAgentClaim (filterStaleClaims stale claims) ag = none) :
    ((∀ e, lookupClaim (filterStaleClaims stale claims) sp t = some e →
        (claimTask stale claims sp t ag sid pid now r).1 =
          ClaimResult.already_claimed e) ∧
     (lookupClaim (filterStaleClaims stale claims) sp t = none →
        (claimTask stale claims sp t ag sid pid now r).1 =
          ClaimResult.success now)) ∧
    (∀ c, lookupCompletion comps sp t = some c →
        (completeTask stale claims comps sp t ag now notes).1 =
          CompleteResult.already_completed c) ∧
    (∀ res : ClaimResult, (∃ x, res = ClaimResult.success x) ∨
      (∃ c, res = ClaimResult.already_claimed c) ∨
      (∃ a b, res = ClaimResult.already_have_claim a b)) := by
  have hno' : findAgentClaim (cleanupStaleClaims stale claims).1 ag = none := by
    rw [cleanup_fst]; exact hno
  refine ⟨⟨?_, ?_⟩, ?_, ?_⟩
  · intro e he
    have he' : lookupClaim (cleanupStaleClaims stale claims).1 sp t = some e := by
      rw [cleanup_fst]; exact he
    simp [claimTask, hno', he']
  · intro he
    have he' : lookupClaim (cleanupStaleClaims stale claims).1 sp t = none := by
      rw [cleanup_fst]; exact he
    simp [claimTask, hno', he']
  · intro c hc
    simp [completeTask, hc]
  · intro res
    cases res with
    | success x => exact Or.inl ⟨x, rfl⟩
    | already_claimed c => exact Or.inr (Or.inl ⟨c, rfl⟩)
    | already_have_claim a b => exact Or.inr (Or.inr ⟨a, b, rfl⟩)

/-- Witness for the amended C1: concrete call on an empty claims file with a
recorded completion for the task; the claim is granted. -/
theorem claimTask_ignores_completions_witness :
    (claimTask (fun _ => false) [] "spec.md" "T-7" "beta" "s2" 7 "t1" none).1 =
      ClaimResult.success "t1" :=
  (claimTask_ignores_completions (fun _ => false) [] [("spec.md", [("T-7", ⟨"alpha", "t0", none⟩)])]
    "spec.md" "T-7" "beta" "s2" 7 "t1" none none rfl).1.2 rfl

/-- C2: starting from a state in which agent A holds no non-stale claim,
any sequence of claimTask / unclaimTask / completeTask operations leaves A
with at most one non-stale claim over all specs; and a `claimTask` by A
while A holds any non-stale claim anywhere fails with
`already_have_claim`, reporting a (spec, taskId) at which A does hold a
non-stale claim. -/
theorem single_claim_per_agent :
    (∀ (stale : ClaimEntry → Bool) (A : String) (claims : AllClaims)
        (comps : AllCompletions) (ops : List SwarmOp),
      nonStaleClaimCount stale A claims = 0 →
      nonStaleClaimCount stale A (applySwarmOps stale (claims, comps) ops).1 ≤ 1) ∧
    (∀ (stale : ClaimEntry → Bool) (A : String) (claims : AllClaims)
        (sp t sid : String) (pid : Nat) (now : String) (r : Option String),
      (∃ s' t' e, ClaimMem claims s' t' e ∧ e.agent = A ∧ stale e = false) →
      ∃ s' t' e, (claimTask stale claims sp t A sid pid now r).1 =
          ClaimResult.already_have_claim s' t' ∧
        ClaimMem claims s' t' e ∧ e.agent = A ∧ stale e = false) := by
  constructor
  · intro stale A claims comps ops h0
    apply count_applyOps_le
    show nonStaleClaimCount stale A claims ≤ 1
    rw [h0]
    exact Nat.zero_le 1
  · rintro stale A claims sp t sid pid now r ⟨s', t', e, hm, hag, hst⟩
    have hmem : ClaimMem (filterStaleClaims stale claims) s' t' e :=
      claimMem_filterStale.mpr ⟨hm, hst⟩
    cases hf : findAgentClaim (cleanupStaleClaims stale claims).1 A with
    | none =>
      rw [cleanup_fst] at hf
      exact absurd hag (findAgentClaim_eq_none.mp hf s' t' e hmem)
    | some st =>
      obtain ⟨s2, t2⟩ := st
      obtain ⟨e2, hm2, hag2⟩ := findAgentClaim_eq_some hf
      rw [cleanup_fst] at hm2
      obtain ⟨hm2', hst2⟩ := claimMem_filterStale.mp hm2
      refine ⟨s2, t2, e2, ?_, hm2', hag2, hst2⟩
      simp [claimTask, hf]

/-- Witness for C2: from an empty claims file, claiming twice as the same
agent leaves at most one claim; and with a live claim on T-1 a second
claim attempt reports it. -/
theorem single_claim_per_agent_witness :
    nonStaleClaimCount (fun _ => false) "alpha"
      (applySwarmOps (fun _ => false) ([], [])
        [SwarmOp.claim "spec.md" "T-1" "alpha" "s" 1 "t" none,
         SwarmOp.claim "spec.md" "T-2" "alpha" "s" 1 "t2" none]).1 ≤ 1 ∧
    (∃ s' t' e, (claimTask (fun _ => false)
        [("spec.md", [("T-1", ⟨"alpha", "s", 1, "t", none⟩)])]
        "spec.md" "T-2" "alpha" "s" 1 "t2" none).1 =
        ClaimResult.already_have_claim s' t' ∧
      ClaimMem [("spec.md", [("T-1", ⟨"alpha", "s", 1, "t", none⟩)])] s' t' e ∧
      e.agent = "alpha" ∧ (fun (_ : ClaimEntry) => false) e = false) := by
  constructor
  · exact single_claim_per_agent.1 (fun _ => false) "alpha" [] [] _ rfl
  · exact single_claim_per_agent.2 (fun _ => false) "alpha"
      [("spec.md", [("T-1", ⟨"alpha", "s", 1, "t", none⟩)])]
      "spec.md" "T-2" "s" 1 "t2" none
      ⟨"spec.md", "T-1", ⟨"alpha", "s", 1, "t", none⟩, by decide, rfl, rfl⟩

/-- C3: on success, `completeTask` performs exactly two file writes with
the completions file first; the pre-state held the caller's claim; the
written completions record the task as completed by the caller; after the
first write alone the claims file is untouched (so an I/O failure between
the writes leaves only the old claim behind, which the stale purge can
later collect), and from the first write on the completion record is on
disk — it is never lost. -/
theorem completeTask_write_order (stale : ClaimEntry → Bool)
    (claims : AllClaims) (comps : AllCompletions) (sp t ag now : String)
    (notes : Option String)
    (hsucc : (completeTask stale claims comps sp t ag now notes).1 =
      CompleteResult.success now) :
    (completeTask stale claims comps sp t ag now notes).2.2.2 =
      [WriteEv.completions (completeTask stale claims comps sp t ag now notes).2.2.1,
       WriteEv.claims (completeTask stale claims comps sp t ag now notes).2.1] ∧
    (∃ e, ClaimMem claims sp t e ∧ e.agent = ag) ∧
    (∃ c, lookupCompletion
        (completeTask stale claims comps sp t ag now notes).2.2.1 sp t = some c ∧
      c.completedBy = ag) ∧
    (applyWrites (claims, comps)
      ((completeTask stale claims comps sp t ag now notes).2.2.2.take 1)).1 = claims ∧
    (∀ n, 1 ≤ n → ∃ c, lookupCompletion
        (applyWrites (claims, comps)
          ((completeTask stale claims comps sp t ag now notes).2.2.2.take n)).2
        sp t = some c ∧ c.completedBy = ag) := by
  cases hcomp : lookupCompletion comps sp t with
  | some existing => simp [completeTask, hcomp] at hsucc
  | none =>
  cases hl : lookupClaim (cleanupStaleClaims stale claims).1 sp t with
  | none => simp [completeTask, hcomp, hl] at hsucc
  | some claim =>
  by_cases hag : (!(claim.agent == ag)) = true
  · simp [completeTask, hcomp, hl, hag] at hsucc
  · have hagent : claim.agent = ag := by
      cases hq : (claim.agent == ag)
      · rw [hq] at hag; exact absurd rfl hag
      · exact eq_of_beq hq
    have hmem : ClaimMem claims sp t claim := by
      have := lookupClaim_some_mem hl
      rw [cleanup_fst] at this
      exact (claimMem_filterStale.mp this).1
    have hins := lookupCompletion_insert_self comps sp t ⟨ag, now, notes⟩ hcomp
    refine ⟨?_, ⟨claim, hmem, hagent⟩, ?_, ?_, ?_⟩
    · simp [completeTask, hcomp, hl, hag]
    · refine ⟨⟨ag, now, notes⟩, ?_, rfl⟩
      simp [completeTask, hcomp, hl, hag]
      exact hins
    · simp [completeTask, hcomp, hl, hag, applyWrites, applyWrite]
    · intro n hn
      refine ⟨⟨ag, now, notes⟩, ?_, rfl⟩
      match n, hn with
      | 1, _ =>
        simp [completeTask, hcomp, hl, hag, applyWrites, applyWrite]
        exact hins
      | (m + 2), _ =>
        simp [completeTask, hcomp, hl, hag, applyWrites, applyWrite, List.take]
        exact hins

/-- Witness for C3: completing a concretely claimed task writes completions
then claims, in that order. -/
theorem completeTask_write_order_witness :
    (completeTask (fun _ => false)
      [("spec.md", [("T-7", ⟨"alpha", "s", 1, "t0", none⟩)])] []
      "spec.md" "T-7" "alpha" "t2" none).2.2.2 =
      [WriteEv.completions [("spec.md", [("T-7", ⟨"alpha", "t2", none⟩)])],
       WriteEv.claims []] :=
  (completeTask_write_order (fun _ => false)
    [("spec.md", [("T-7", ⟨"alpha", "s", 1, "t0", none⟩)])] []
    "spec.md" "T-7" "alpha" "t2" none rfl).1

/-- C7: the stale-claim purge is idempotent — filtering a filtered map, or
cleaning a cleaned map, changes nothing — `cleanupStaleClaims` leaves
exactly the `filterStaleClaims` image on disk, and the purge removes
exactly the entries stale under `isClaimStale`, keeping every non-stale
claim unchanged. -/
theorem stale_purge_idempotent (alive : Nat → Bool) (registry : String → RegFile)
    (claims : AllClaims) :
    filterStaleClaims (isClaimStale alive registry)
        (filterStaleClaims (isClaimStale alive registry) claims) =
      filterStaleClaims (isClaimStale alive registry) claims ∧
    (cleanupStaleClaims (isClaimStale alive registry) claims).1 =
      filterStaleClaims (isClaimStale alive registry) claims ∧
    (cleanupStaleClaims (isClaimStale alive registry)
        (cleanupStaleClaims (isClaimStale alive registry) claims).1).1 =
      (cleanupStaleClaims (isClaimStale alive registry) claims).1 ∧
    ∀ s t e, ClaimMem (filterStaleClaims (isClaimStale alive registry) claims) s t e ↔
      ClaimMem claims s t e ∧ isClaimStale alive registry e = false := by
  refine ⟨filterStale_idem _ _, cleanup_fst _ _, ?_, fun s t e => claimMem_filterStale⟩
  rw [cleanup_fst, cleanup_fst, filterStale_idem]

/-! Lemmas on the lock-acquisition loop. -/

lemma withSwarmLockGo_length_le (alive : Nat → Bool) (env : Nat → LockObs) :
    ∀ (fuel i : Nat), (withSwarmLockGo alive env i fuel).2.length ≤ fuel := by
  intro fuel
  induction fuel with
  | zero => intro i; simp [withSwarmLockGo]
  | succ f ih =>
    intro i
    simp only [withSwarmLockGo]
    cases hc : (env i).create <;> simp [hc]
    exact Nat.le_of_succ_le_succ (Nat.succ_le_succ (ih (i + 1)))

lemma withSwarmLockGo_getElem (alive : Nat → Bool) (env : Nat → LockObs) :
    ∀ (fuel i j : Nat), j < (withSwarmLockGo alive env i fuel).2.length →
      (withSwarmLockGo alive env i fuel).2[j]? =
        some ⟨lockStaleRemoval alive (env (i + j)), (env (i + j)).create⟩ := by
  intro fuel
  induction fuel with
  | zero => intro i j h; simp [withSwarmLockGo] at h
  | succ f ih =>
    intro i j h
    cases hc : (env i).create
    case ok =>
      rw [show (withSwarmLockGo alive env i (f + 1)).2 =
          [⟨lockStaleRemoval alive (env i), CreateOutcome.ok⟩] from by
        simp [withSwarmLockGo, hc]] at h ⊢
      simp only [List.length_singleton, Nat.lt_one_iff] at h
      subst h
      simp [hc]
    case otherErr =>
      rw [show (withSwarmLockGo alive env i (f + 1)).2 =
          [⟨lockStaleRemoval alive (env i), CreateOutcome.otherErr⟩] from by
        simp [withSwarmLockGo, hc]] at h ⊢
      simp only [List.length_singleton, Nat.lt_one_iff] at h
      subst h
      simp [hc]
    case eexist =>
      rw [show (withSwarmLockGo alive env i (f + 1)).2 =
          ⟨lockStaleRemoval alive (env i), CreateOutcome.eexist⟩ ::
            (withSwarmLockGo alive env (i + 1) f).2 from by
        simp [withSwarmLockGo, hc]] at h ⊢
      cases j with
      | zero => simp [hc]
      | succ j' =>
        simp only [List.length_cons] at h
        have hj : j' < (withSwarmLockGo alive env (i + 1) f).2.length :=
          Nat.lt_of_succ_lt_succ h
        simp only [List.getElem?_cons_succ]
        rw [ih (i + 1) j' hj, show i + 1 + j' = i + (j' + 1) from by omega]

lemma withSwarmLockGo_failed_iff (alive : Nat → Bool) (env : Nat → LockObs) :
    ∀ (fuel i : Nat), (withSwarmLockGo alive env i fuel).1 = AcquireOutcome.lockFailed ↔
      ∀ j < fuel, (env (i + j)).create = CreateOutcome.eexist := by
  intro fuel
  induction fuel with
  | zero => intro i; simp [withSwarmLockGo]
  | succ f ih =>
    intro i
    cases hc : (env i).create
    case ok =>
      rw [show (withSwarmLockGo alive env i (f + 1)).1 = AcquireOutcome.acquired from by
        simp [withSwarmLockGo, hc]]
      refine iff_of_false (by simp) ?_
      intro hall
      have h0 := hall 0 (Nat.succ_pos f)
      rw [Nat.add_zero, hc] at h0
      exact absurd h0 (by simp)
    case otherErr =>
      rw [show (withSwarmLockGo alive env i (f + 1)).1 = AcquireOutcome.ioError from by
        simp [withSwarmLockGo, hc]]
      refine iff_of_false (by simp) ?_
      intro hall
      have h0 := hall 0 (Nat.succ_pos f)
      rw [Nat.add_zero, hc] at h0
      exact absurd h0 (by simp)
    case eexist =>
      rw [show (withSwarmLockGo alive env i (f + 1)).1 =
          (withSwarmLockGo alive env (i + 1) f).1 from by
        simp [withSwarmLockGo, hc]]
      rw [ih (i + 1)]
      constructor
      · intro hall j hj
        cases j with
        | zero => rw [Nat.add_zero]; exact hc
        | succ j' =>
          have := hall j' (Nat.lt_of_succ_lt_succ hj)
          rwa [show i + 1 + j' = i + (j' + 1) from by omega] at this
      · intro hall j hj
        have := hall (j + 1) (Nat.succ_lt_succ hj)
        rwa [show i + (j + 1) = i + 1 + j from by omega] at this

lemma withSwarmLockGo_failed_len (alive : Nat → Bool) (env : Nat → LockObs) :
    ∀ (fuel i : Nat), (withSwarmLockGo alive env i fuel).1 = AcquireOutcome.lockFailed →
      (withSwarmLockGo alive env i fuel).2.length = fuel := by
  intro fuel
  induction fuel with
  | zero => intro i _; simp [withSwarmLockGo]
  | succ f ih =>
    intro i h
    cases hc : (env i).create
    case ok =>
      rw [show (withSwarmLockGo alive env i (f + 1)).1 = AcquireOutcome.acquired from by
        simp [withSwarmLockGo, hc]] at h
      exact absurd h (by simp)
    case otherErr =>
      rw [show (withSwarmLockGo alive env i (f + 1)).1 = AcquireOutcome.ioError from by
        simp [withSwarmLockGo, hc]] at h
      exact absurd h (by simp)
    case eexist =>
      rw [show (withSwarmLockGo alive env i (f + 1)).1 =
          (withSwarmLockGo alive env (i + 1) f).1 from by
        simp [withSwarmLockGo, hc]] at h
      rw [show (withSwarmLockGo alive env i (f + 1)).2 =
          ⟨lockStaleRemoval alive (env i), CreateOutcome.eexist⟩ ::
            (withSwarmLockGo alive env (i + 1) f).2 from by
        simp [withSwarmLockGo, hc]]
      simp [ih (i + 1) h]

/-- C4: the lock-acquisition loop of `withSwarmLock`: the constants are 10 s
staleness, 50 retries, 100 ms delay; an existing lock is forcibly removed
before the create attempt exactly when its mtime age exceeds 10 s and the
PID it stores is dead (unreadable or zero PID counting as dead); at most
50 create attempts occur, each iteration performs its removal decision on
what it observed; the loop fails exactly when all 50 attempts see
`EEXIST`, and in that case all 50 attempts were used. -/
theorem withSwarmLock_spec (alive : Nat → Bool) (env : Nat → LockObs) :
    LOCK_STALE_MS = 10000 ∧ lockMaxRetries = 50 ∧ lockRetryDelay = 100 ∧
    (∀ o, lockStaleRemoval alive o = true ↔
      ∃ age, o.statAge = some age ∧ LOCK_STALE_MS < age ∧
        (o.content = none ∨ o.content = some 0 ∨
          ∃ p, o.content = some p ∧ alive p = false)) ∧
    (withSwarmLockAcquire alive env).2.length ≤ 50 ∧
    (∀ j, j < (withSwarmLockAcquire alive env).2.length →
      (withSwarmLockAcquire alive env).2[j]? =
        some ⟨lockStaleRemoval alive (env j), (env j).create⟩) ∧
    ((withSwarmLockAcquire alive env).1 = AcquireOutcome.lockFailed ↔
      ∀ j < 50, (env j).create = CreateOutcome.eexist) ∧
    ((withSwarmLockAcquire alive env).1 = AcquireOutcome.lockFailed →
      (withSwarmLockAcquire alive env).2.length = 50) := by
  refine ⟨rfl, rfl, rfl, ?_, ?_, ?_, ?_, ?_⟩
  · intro o
    obtain ⟨sa, co, cr⟩ := o
    cases sa with
    | none => simp [lockStaleRemoval]
    | some age =>
      cases co with
      | none =>
        simp only [lockStaleRemoval, Bool.and_true]
        simp [decide_eq_true_iff, gt_iff_lt]
      | some p =>
        simp only [lockStaleRemoval]
        rw [Bool.and_eq_true, decide_eq_true_iff]
        constructor
        · rintro ⟨hage, hp⟩
          rw [Bool.or_eq_true] at hp
          refine ⟨age, rfl, hage, ?_⟩
          rcases hp with hp0 | hpd
          · have hp00 : p = 0 := by simpa using hp0
            exact Or.inr (Or.inl (by simp [hp00]))
          · refine Or.inr (Or.inr ⟨p, rfl, ?_⟩)
            cases ha : alive p
            · rfl
            · rw [ha] at hpd; exact absurd hpd (by simp)
        · rintro ⟨age', hae, hlt, hd⟩
          have : age' = age := by
            have := Option.some.inj hae
            omega
          subst this
          refine ⟨hlt, ?_⟩
          rw [Bool.or_eq_true]
          rcases hd with hnone | hzero | ⟨p', hps, hpd⟩
          · exact absurd hnone (by simp)
          · have : p = 0 := Option.some.inj hzero
            exact Or.inl (by simp [this])
          · have : p' = p := (Option.some.inj hps).symm
            subst this
            exact Or.inr (by simp [hpd])
  · exact withSwarmLockGo_length_le alive env 50 0
  · intro j hj
    have := withSwarmLockGo_getElem alive env 50 0 j hj
    rwa [Nat.zero_add] at this
  · have := withSwarmLockGo_failed_iff alive env 50 0
    simpa [Nat.zero_add] using this
  · exact withSwarmLockGo_failed_len alive env 50 0

/-- Witness for C4: with the lock held by a live writer forever (every
iteration sees EEXIST), acquisition fails after exactly 50 attempts. -/
theorem withSwarmLock_spec_witness :
    (withSwarmLockAcquire (fun _ => true)
      (fun _ => ⟨some 20000, some 3, CreateOutcome.eexist⟩)).2.length = 50 :=
  (withSwarmLock_spec (fun _ => true)
    (fun _ => ⟨some 20000, some 3, CreateOutcome.eexist⟩)).2.2.2.2.2.2.2 rfl

/-! Lemmas for the inbox processing pass. -/

lemma charsLe_trans : ∀ as bs cs : List Char,
    charsLe as bs = true → charsLe bs cs = true → charsLe as cs = true := by
  intro as
  induction as with
  | nil => intro bs cs _ _; simp [charsLe]
  | cons a as ih =>
    intro bs cs h1 h2
    cases bs with
    | nil => simp [charsLe] at h1
    | cons b bs' =>
      cases cs with
      | nil => simp [charsLe] at h2
      | cons c cs' =>
        simp only [charsLe] at h1 h2 ⊢
        by_cases hab : a.toNat < b.toNat
        · rw [if_pos hab] at h1
          by_cases hbc : b.toNat < c.toNat
          · rw [if_pos (show a.toNat < c.toNat from Nat.lt_trans hab hbc)]
          · by_cases hcb : c.toNat < b.toNat
            · rw [if_neg hbc, if_pos hcb] at h2
              exact absurd h2 (by simp)
            · have hbceq : b.toNat = c.toNat := by omega
              rw [if_pos (show a.toNat < c.toNat from hbceq ▸ hab)]
        · by_cases hba : b.toNat < a.toNat
          · rw [if_neg hab, if_pos hba] at h1
            exact absurd h1 (by simp)
          · have habeq : a.toNat = b.toNat := by omega
            rw [if_neg hab, if_neg hba] at h1
            by_cases hbc : b.toNat < c.toNat
            · rw [if_pos (show a.toNat < c.toNat from habeq ▸ hbc)]
            · by_cases hcb : c.toNat < b.toNat
              · rw [if_neg hbc, if_pos hcb] at h2
                exact absurd h2 (by simp)
              · rw [if_neg hbc, if_neg hcb] at h2
                rw [if_neg (show ¬a.toNat < c.toNat from by omega),
                    if_neg (show ¬c.toNat < a.toNat from by omega)]
                exact ih bs' cs' h1 h2

lemma charsLe_total : ∀ as bs : List Char,
    (charsLe as bs || charsLe bs as) = true := by
  intro as
  induction as with
  | nil => intro bs; simp [charsLe]
  | cons a as ih =>
    intro bs
    cases bs with
    | nil => simp [charsLe]
    | cons b bs' =>
      simp only [charsLe]
      by_cases hab : a.toNat < b.toNat
      · simp [hab]
      · by_cases hba : b.toNat < a.toNat
        · simp [hab, hba]
        · simp only [hab, hba, if_false]
          exact ih bs'

/-- The file name of an unlink event. -/
def deletedName : PassEvent → Option String
  | PassEvent.deleted f => some f
  | PassEvent.callback _ _ _ => none

lemma fileEvents_deletedNames (f : InboxFile) :
    (fileEvents f).filterMap deletedName = [f.name] := by
  cases h : f.outcome <;> simp [fileEvents, h, deletedName]

lemma flatMap_fileEvents_deletedNames (files : List InboxFile) :
    ((files.flatMap fileEvents).filterMap deletedName) =
      files.map (fun f => f.name) := by
  induction files with
  | nil => rfl
  | cons f rest ih =>
    simp only [List.flatMap_cons, List.filterMap_append, List.map_cons,
      fileEvents_deletedNames, ih]
    rfl

lemma callback_mem_fileEvents (fl : InboxFile) (f : String)
    (m : AgentMailMessage) (ok : Bool) :
    PassEvent.callback f m ok ∈ fileEvents fl ↔
      fl.name = f ∧ ((ok = true ∧ fl.outcome = MsgOutcome.ok m) ∨
        (ok = false ∧ fl.outcome = MsgOutcome.deliverFail m)) := by
  cases ho : fl.outcome <;>
    simp [fileEvents, ho, eq_comm, and_comm, and_assoc, and_left_comm]

lemma fileEvents_last_deleted (fl : InboxFile) :
    ∃ pre, fileEvents fl = pre ++ [PassEvent.deleted fl.name] ∧
      ∀ e ∈ pre, ∃ m ok, e = PassEvent.callback fl.name m ok := by
  cases ho : fl.outcome with
  | readFail => exact ⟨[], by simp [fileEvents, ho]⟩
  | parseFail => exact ⟨[], by simp [fileEvents, ho]⟩
  | deliverFail m =>
    refine ⟨[PassEvent.callback fl.name m false], by simp [fileEvents, ho], ?_⟩
    intro e he
    simp at he
    exact ⟨m, false, he⟩
  | ok m =>
    refine ⟨[PassEvent.callback fl.name m true], by simp [fileEvents, ho], ?_⟩
    intro e he
    simp at he
    exact ⟨m, true, he⟩

/-- C5: a processing pass works through exactly the `.json` files of the
inbox listing, in sorted name order: the unlink sequence lists each such
file once in processing order, the processed order is a sorted
permutation of the `.json` listing, the delivery callback is invoked
exactly on the files whose read and parse succeed (with success exactly
for the non-throwing deliveries), each file's unlink comes after any
callback on it, and with distinct file names no file is unlinked twice —
every message is handled at most once. -/
theorem processAllPendingMessages_spec (inbox : List InboxFile) :
    (processAllPendingMessages inbox).filterMap deletedName =
      (sortedJsonFiles inbox).map (fun f => f.name) ∧
    ((sortedJsonFiles inbox).map (fun f => f.name)).Perm
      ((inbox.filter (fun f => isJsonName f.name)).map (fun f => f.name)) ∧
    List.Pairwise (fun a b => nameLe a b = true)
      ((sortedJsonFiles inbox).map (fun f => f.name)) ∧
    (∀ f m ok, PassEvent.callback f m ok ∈ processAllPendingMessages inbox ↔
      ∃ fl, fl ∈ inbox ∧ isJsonName fl.name = true ∧ fl.name = f ∧
        ((ok = true ∧ fl.outcome = MsgOutcome.ok m) ∨
         (ok = false ∧ fl.outcome = MsgOutcome.deliverFail m))) ∧
    (∀ fl, fl ∈ sortedJsonFiles inbox →
      ∃ pre, fileEvents fl = pre ++ [PassEvent.deleted fl.name] ∧
        ∀ e ∈ pre, ∃ m ok, e = PassEvent.callback fl.name m ok) ∧
    ((inbox.map (fun f => f.name)).Nodup →
      ((processAllPendingMessages inbox).filterMap deletedName).Nodup) := by
  have hperm : (sortedJsonFiles inbox).Perm
      (inbox.filter (fun f => isJsonName f.name)) :=
    List.perm_insertionSort _ _
  have hdel : (processAllPendingMessages inbox).filterMap deletedName =
      (sortedJsonFiles inbox).map (fun f => f.name) :=
    flatMap_fileEvents_deletedNames _
  refine ⟨hdel, hperm.map _, ?_, ?_, fun fl _ => fileEvents_last_deleted fl, ?_⟩
  · rw [List.pairwise_map]
    haveI : IsTotal InboxFile (fun a b => nameLe a.name b.name = true) := by
      constructor
      intro a b
      have := charsLe_total a.name.data b.name.data
      rcases Bool.or_eq_true_iff.mp this with h | h
      · exact Or.inl h
      · exact Or.inr h
    haveI : IsTrans InboxFile (fun a b => nameLe a.name b.name = true) := by
      constructor
      intro a b c hab hbc
      exact charsLe_trans _ _ _ hab hbc
    exact List.sorted_insertionSort (fun a b : InboxFile => nameLe a.name b.name = true)
      (inbox.filter (fun f => isJsonName f.name))
  · intro f m ok
    rw [show processAllPendingMessages inbox =
      (sortedJsonFiles inbox).flatMap fileEvents from rfl]
    rw [List.mem_flatMap]
    constructor
    · rintro ⟨fl, hfl, hev⟩
      have hmem : fl ∈ inbox.filter (fun f => isJsonName f.name) :=
        hperm.mem_iff.mp hfl
      obtain ⟨hin, hjson⟩ := List.mem_filter.mp hmem
      obtain ⟨hname, hout⟩ := (callback_mem_fileEvents fl f m ok).mp hev
      exact ⟨fl, hin, hjson, hname, hout⟩
    · rintro ⟨fl, hin, hjson, hname, hout⟩
      refine ⟨fl, ?_, (callback_mem_fileEvents fl f m ok).mpr ⟨hname, hout⟩⟩
      exact hperm.mem_iff.mpr (List.mem_filter.mpr ⟨hin, hjson⟩)
  · intro hnd
    rw [hdel]
    have h1 : ((inbox.filter (fun f => isJsonName f.name)).map
        (fun f => f.name)).Nodup := by
      have hsub : List.Sublist
          ((inbox.filter (fun f => isJsonName f.name)).map (fun f => f.name))
          (inbox.map (fun f => f.name)) :=
        (List.filter_sublist inbox).map _
      exact hnd.sublist hsub
    exact ((hperm.map (fun f => f.name)).nodup_iff).mpr h1

/-- Witness for C5: a concrete inbox with an out-of-order listing, a
non-json file and a failing read: the pass unlinks exactly the two json
files, in sorted order, each at most once. -/
theorem processAllPendingMessages_spec_witness :
    ((processAllPendingMessages
      [⟨"b.json", MsgOutcome.ok ⟨"1", "a", "b", "hi", "t", none⟩⟩,
       ⟨"a.json", MsgOutcome.readFail⟩,
       ⟨"c.txt", MsgOutcome.ok ⟨"2", "a", "b", "x", "t", none⟩⟩]).filterMap
      deletedName) = ["a.json", "b.json"] ∧
    ((processAllPendingMessages
      [⟨"b.json", MsgOutcome.ok ⟨"1", "a", "b", "hi", "t", none⟩⟩,
       ⟨"a.json", MsgOutcome.readFail⟩,
       ⟨"c.txt", MsgOutcome.ok ⟨"2", "a", "b", "x", "t", none⟩⟩]).filterMap
      deletedName).Nodup := by
  constructor
  · exact (processAllPendingMessages_spec
      [⟨"b.json", MsgOutcome.ok ⟨"1", "a", "b", "hi", "t", none⟩⟩,
       ⟨"a.json", MsgOutcome.readFail⟩,
       ⟨"c.txt", MsgOutcome.ok ⟨"2", "a", "b", "x", "t", none⟩⟩]).1.trans (by decide)
  · exact (processAllPendingMessages_spec
      [⟨"b.json", MsgOutcome.ok ⟨"1", "a", "b", "hi", "t", none⟩⟩,
       ⟨"a.json", MsgOutcome.readFail⟩,
       ⟨"c.txt", MsgOutcome.ok ⟨"2", "a", "b", "x", "t", none⟩⟩]).2.2.2.2.2
      (by decide)

lemma newNameTaken_true_iff (alive : Nat → Bool) (selfPid : Nat) (rec : RegFile) :
    newNameTaken alive selfPid rec = true ↔
      ∃ p sid, rec = RegFile.reg p sid ∧ alive p = true ∧ ¬p = selfPid := by
  cases rec with
  | absent => simp [newNameTaken]
  | malformed => simp [newNameTaken]
  | reg p sid =>
    simp only [newNameTaken, Bool.and_eq_true, Bool.not_eq_eq_eq_not, Bool.not_true]
    constructor
    · rintro ⟨ha, hp⟩
      refine ⟨p, sid, rfl, ha, ?_⟩
      intro hps
      rw [hps] at hp
      simp at hp
    · rintro ⟨p', sid', heq, ha, hne⟩
      obtain ⟨h1, h2⟩ : p' = p ∧ sid' = sid := by
        cases heq
        exact ⟨rfl, rfl⟩
      subst h1
      refine ⟨ha, ?_⟩
      cases hps : (p' == selfPid)
      · rfl
      · exact absurd (by simpa using hps) hne

/-- C6: `renameAgent` drains the caller's inbox (delivering every pending
message) before writing the new registration record; when it succeeds the
ownership-verification read returned the caller's own PID, and the trace
contains — in order — the write of the new record, the deletion of the
old record, the creation of the new inbox directory and the removal of
the old one, with the in-memory name updated to the new name; every
failure carries exactly one of the five error discriminants, `name_taken`
only on a live collision under the new name, `race_lost` only when the
verification read did not return the caller's PID, and a failed call
leaves the in-memory name unchanged. -/
theorem renameAgent_spec (env : RenameEnv) (newName : String) :
    (RenameEv.wroteNewReg newName ∈ (renameAgent env newName).2.1 →
      ∃ post, (renameAgent env newName).2.1 =
          env.pendingMsgs.map RenameEv.delivered ++ post ∧
        ∀ m, RenameEv.delivered m ∉ post) ∧
    (∀ old nw, (renameAgent env newName).1 = RenameResult.success old nw →
      old = env.currentName ∧ nw = newName ∧
      (∃ sid, env.verifyRead = RegFile.reg env.selfPid sid) ∧
      List.Sublist
        [RenameEv.wroteNewReg newName, RenameEv.deletedOldReg env.currentName,
         RenameEv.ensuredNewInbox newName, RenameEv.removedOldInbox env.currentName]
        (renameAgent env newName).2.1 ∧
      (renameAgent env newName).2.2 = newName) ∧
    (∀ e, (renameAgent env newName).1 = RenameResult.failure e →
      (e = RenameError.invalid_name ∨ e = RenameError.name_taken ∨
       e = RenameError.same_name ∨ e = RenameError.race_lost ∨
       e = RenameError.not_registered) ∧
      (renameAgent env newName).2.2 = env.currentName) ∧
    ((renameAgent env newName).1 = RenameResult.failure RenameError.name_taken →
      ∃ p sid, env.newNameRecord = RegFile.reg p sid ∧ env.alive p = true ∧
        ¬p = env.selfPid) ∧
    ((renameAgent env newName).1 = RenameResult.failure RenameError.race_lost →
      ∀ p sid, env.verifyRead = RegFile.reg p sid → ¬p = env.selfPid) := by
  obtain ⟨reg, valid, cur, selfPid, alive, rec, msgs, wOk, vRead, nie, nif⟩ := env
  cases reg with
  | false => refine ⟨?_, ?_, ?_, ?_, ?_⟩ <;> simp [renameAgent]
  | true =>
  cases valid with
  | false => refine ⟨?_, ?_, ?_, ?_, ?_⟩ <;> simp [renameAgent]
  | true =>
  by_cases hsame : (newName == cur) = true
  · refine ⟨?_, ?_, ?_, ?_, ?_⟩ <;> simp [renameAgent, hsame]
  · cases hcol : newNameTaken alive selfPid rec with
    | true =>
      refine ⟨?_, ?_, ?_, ?_, ?_⟩ <;> simp [renameAgent, hsame, hcol]
      obtain ⟨p, sid, h1, h2, h3⟩ := (newNameTaken_true_iff alive selfPid rec).mp hcol
      exact ⟨p, ⟨sid, h1⟩, h2, h3⟩
    | false =>
      cases wOk with
      | false =>
        refine ⟨?_, ?_, ?_, ?_, ?_⟩ <;>
          simp [renameAgent, hsame, hcol, List.mem_map]
      | true =>
        cases vRead with
        | absent =>
          refine ⟨?_, ?_, ?_, ?_, ?_⟩ <;>
            simp [renameAgent, hsame, hcol, List.mem_map]
        | malformed =>
          refine ⟨?_, ?_, ?_, ?_, ?_⟩ <;>
            simp [renameAgent, hsame, hcol, List.mem_map]
        | reg p sid =>
          cases hps : (p == selfPid) with
          | false =>
            have hpne : ¬p = selfPid := by
              intro hpe
              rw [hpe] at hps
              simp at hps
            refine ⟨?_, ?_, ?_, ?_, ?_⟩ <;>
              simp [renameAgent, hsame, hcol, hps, List.mem_map]
            exact hpne
          | true =>
            have hpeq : p = selfPid := by simpa using hps
            have hres : renameAgent
                ⟨true, true, cur, selfPid, alive, rec, msgs, true,
                  RegFile.reg p sid, nie, nif⟩ newName =
                (RenameResult.success cur newName,
                 msgs.map RenameEv.delivered ++
                   (RenameEv.wroteNewReg newName :: RenameEv.deletedOldReg cur ::
                     ((if nie then (nif.filter isJsonName).map
                         RenameEv.removedStaleInboxFile else []) ++
                       [RenameEv.ensuredNewInbox newName,
                        RenameEv.removedOldInbox cur])),
                 newName) := by
              simp [renameAgent, hsame, hcol, hps, List.append_assoc]
            refine ⟨?_, ?_, ?_, ?_, ?_⟩
            · intro _
              rw [show (renameAgent
                  ⟨true, true, cur, selfPid, alive, rec, msgs, true,
                    RegFile.reg p sid, nie, nif⟩ newName).2.1 =
                  msgs.map RenameEv.delivered ++
                    (RenameEv.wroteNewReg newName :: RenameEv.deletedOldReg cur ::
                      ((if nie then (nif.filter isJsonName).map
                          RenameEv.removedStaleInboxFile else []) ++
                        [RenameEv.ensuredNewInbox newName,
                         RenameEv.removedOldInbox cur])) from by rw [hres]]
              refine ⟨_, rfl, ?_⟩
              intro m
              by_cases hn : nie = true <;> simp [hn]
            · intro old nw hsucc
              rw [show (renameAgent
                  ⟨true, true, cur, selfPid, alive, rec, msgs, true,
                    RegFile.reg p sid, nie, nif⟩ newName).1 =
                  RenameResult.success cur newName from by rw [hres]] at hsucc
              obtain ⟨h1, h2⟩ : old = cur ∧ nw = newName := by
                cases hsucc
                exact ⟨rfl, rfl⟩
              refine ⟨h1, h2, ⟨sid, by rw [hpeq]⟩, ?_, ?_⟩
              · rw [show (renameAgent
                    ⟨true, true, cur, selfPid, alive, rec, msgs, true,
                      RegFile.reg p sid, nie, nif⟩ newName).2.1 =
                    msgs.map RenameEv.delivered ++
                      (RenameEv.wroteNewReg newName :: RenameEv.deletedOldReg cur ::
                        ((if nie then (nif.filter isJsonName).map
                            RenameEv.removedStaleInboxFile else []) ++
                          [RenameEv.ensuredNewInbox newName,
                           RenameEv.removedOldInbox cur])) from by rw [hres]]
                refine List.Sublist.trans ?_ (List.sublist_append_right _ _)
                refine List.Sublist.cons₂ _ ?_
                refine List.Sublist.cons₂ _ ?_
                exact List.sublist_append_right _ _
              · rw [show (renameAgent
                    ⟨true, true, cur, selfPid, alive, rec, msgs, true,
                      RegFile.reg p sid, nie, nif⟩ newName).2.2 = newName from by
                  rw [hres]]
            · intro e he
              rw [show (renameAgent
                  ⟨true, true, cur, selfPid, alive, rec, msgs, true,
                    RegFile.reg p sid, nie, nif⟩ newName).1 =
                  RenameResult.success cur newName from by rw [hres]] at he
              exact absurd he (by simp)
            · intro he
              rw [show (renameAgent
                  ⟨true, true, cur, selfPid, alive, rec, msgs, true,
                    RegFile.reg p sid, nie, nif⟩ newName).1 =
                  RenameResult.success cur newName from by rw [hres]] at he
              exact absurd he (by simp)
            · intro he
              rw [show (renameAgent
                  ⟨true, true, cur, selfPid, alive, rec, msgs, true,
                    RegFile.reg p sid, nie, nif⟩ newName).1 =
                  RenameResult.success cur newName from by rw [hres]] at he
              exact absurd he (by simp)

/-- Witness for C6: a concrete successful rename with one pending message:
the in-memory name becomes the new name. -/
theorem renameAgent_spec_witness :
    (renameAgent ⟨true, true, "Old", 5, fun _ => true, RegFile.absent,
      [⟨"1", "p2", "Old", "hi", "t", none⟩], true, RegFile.reg 5 "sid", false, []⟩
      "New").2.2 = "New" :=
  ((renameAgent_spec ⟨true, true, "Old", 5, fun _ => true, RegFile.absent,
      [⟨"1", "p2", "Old", "hi", "t", none⟩], true, RegFile.reg 5 "sid", false, []⟩
      "New").2.1 "Old" "New" (by decide)).2.2.2.2

/-- C9: `sendMessageToAgent` succeeds for any target name whatsoever: it
builds the message from its arguments, marks the target inbox directory
as existing, appends exactly one message file to the target inbox, leaves
the registry untouched, and its outcome is independent of the registry
contents — no registration or liveness check happens; `validateTargetAgent`
is the separate operation that reports `not_found` for a target with no
registration, so an unvalidated send to a nonexistent agent is parked in
an orphan inbox. -/
theorem sendMessageToAgent_unchecked (w : World) (fromName toName text : String)
    (replyTo : Option String) (uuid timestamp fileName : String) :
    ((sendMessageToAgent w fromName toName text replyTo uuid timestamp
        fileName).1.toAgent = toName ∧
      (sendMessageToAgent w fromName toName text replyTo uuid timestamp
        fileName).1.fromAgent = fromName ∧
      (sendMessageToAgent w fromName toName text replyTo uuid timestamp
        fileName).1.text = text) ∧
    (sendMessageToAgent w fromName toName text replyTo uuid timestamp
      fileName).2.inboxDirs toName = true ∧
    (sendMessageToAgent w fromName toName text replyTo uuid timestamp
      fileName).2.inboxFiles toName =
      w.inboxFiles toName ++
        [(fileName, (sendMessageToAgent w fromName toName text replyTo uuid
          timestamp fileName).1)] ∧
    (sendMessageToAgent w fromName toName text replyTo uuid timestamp
      fileName).2.registry = w.registry ∧
    (∀ reg2 : String → RegFile,
      (sendMessageToAgent { w with registry := reg2 } fromName toName text
        replyTo uuid timestamp fileName).1 =
        (sendMessageToAgent w fromName toName text replyTo uuid timestamp
          fileName).1 ∧
      (sendMessageToAgent { w with registry := reg2 } fromName toName text
        replyTo uuid timestamp fileName).2.inboxFiles toName =
        w.inboxFiles toName ++
          [(fileName, (sendMessageToAgent w fromName toName text replyTo uuid
            timestamp fileName).1)]) ∧
    (∀ (validName : String → Bool) (alive : Nat → Bool),
      validName toName = true → w.registry toName = RegFile.absent →
      (validateTargetAgent validName alive w toName).1 =
        TargetValidation.not_found) := by
  refine ⟨⟨rfl, rfl, rfl⟩, ?_, ?_, rfl, ?_, ?_⟩
  · simp [sendMessageToAgent]
  · simp [sendMessageToAgent]
  · intro reg2
    constructor
    · rfl
    · simp [sendMessageToAgent]
  · intro validName alive hv habs
    simp [validateTargetAgent, hv, habs]

/-- Witness for C9: a send to a name with no registration lands in the
orphan inbox while validation reports not_found. -/
theorem sendMessageToAgent_unchecked_witness :
    (validateTargetAgent (fun _ => true) (fun _ => true)
      ⟨fun _ => RegFile.absent, fun _ => false, fun _ => []⟩ "ghost").1 =
      TargetValidation.not_found :=
  (sendMessageToAgent_unchecked
    ⟨fun _ => RegFile.absent, fun _ => false, fun _ => []⟩
    "me" "ghost" "hi" none "u" "t" "f.json").2.2.2.2.2
    (fun _ => true) (fun _ => true) rfl rfl

lemma findAltName_available (alive : Nat → Bool) (registry : String → RegFile)
    (baseName : String) :
    ∀ (l : List Nat) (n : String), findAltName alive registry baseName l = some n →
      registry n = RegFile.absent ∨ registry n = RegFile.malformed ∨
        ∃ p sid, registry n = RegFile.reg p sid ∧ alive p = false := by
  intro l
  induction l with
  | nil => intro n h; simp [findAltName] at h
  | cons i rest ih =>
    intro n h
    simp only [findAltName] at h
    cases hr : registry (baseName ++ toString i) with
    | absent =>
      rw [hr] at h
      simp only [Option.some.injEq] at h
      rw [← h]
      exact Or.inl hr
    | malformed =>
      rw [hr] at h
      simp only [Option.some.injEq] at h
      rw [← h]
      exact Or.inr (Or.inl hr)
    | reg p sid =>
      rw [hr] at h
      have h2 : (if (!alive p) = true then some (baseName ++ toString i)
          else findAltName alive registry baseName rest) = some n := h
      by_cases ha : (!alive p) = true
      · rw [if_pos ha] at h2
        simp only [Option.some.injEq] at h2
        rw [← h2]
        refine Or.inr (Or.inr ⟨p, sid, hr, ?_⟩)
        cases hav : alive p
        · rfl
        · rw [hav] at ha; exact absurd ha (by simp)
      · rw [if_neg ha] at h2
        exact ih n h2

/-- C10: `findAvailableName` treats the base name as available when the
record found under it carries the calling process's own PID — even while
that PID is alive — so a re-joining process reclaims its own name; the
base name is available exactly when its record is absent, unparseable,
dead, or the caller's own; and for the numbered alternatives the own-PID
case is not consulted: an alternative slot holding the caller's own live
PID is skipped, never returned. -/
theorem findAvailableName_own_pid (alive : Nat → Bool) (selfPid : Nat)
    (registry : String → RegFile) (baseName : String) :
    (∀ sid, registry baseName = RegFile.reg selfPid sid →
      findAvailableName alive selfPid registry baseName = some baseName) ∧
    (∀ p sid, registry baseName = RegFile.reg p sid → alive p = true →
      ¬p = selfPid →
      ∀ i sid2, 2 ≤ i → i ≤ 99 →
        registry (baseName ++ toString i) = RegFile.reg selfPid sid2 →
        alive selfPid = true →
        ¬findAvailableName alive selfPid registry baseName =
          some (baseName ++ toString i)) ∧
    (findAvailableName alive selfPid registry baseName = some baseName ↔
      registry baseName = RegFile.absent ∨ registry baseName = RegFile.malformed ∨
      ∃ p sid, registry baseName = RegFile.reg p sid ∧
        (alive p = false ∨ p = selfPid)) := by
  refine ⟨?_, ?_, ?_⟩
  · intro sid h
    simp [findAvailableName, h]
  · intro p sid hb halive hne i sid2 _ _ halt hself hcontra
    have hred : findAvailableName alive selfPid registry baseName =
        findAltName alive registry baseName ((List.range 98).map (fun k => k + 2)) := by
      have h1 : (!alive p) = false := by rw [halive]; rfl
      have h2 : (p == selfPid) = false := by
        cases hq : (p == selfPid)
        · rfl
        · exact absurd (by simpa using hq) hne
      simp [findAvailableName, hb, h1, h2]
    rw [hred] at hcontra
    rcases findAltName_available alive registry baseName _ _ hcontra with
      h | h | ⟨p', sid', hreg, hdead⟩
    · rw [halt] at h; exact absurd h (by simp)
    · rw [halt] at h; exact absurd h (by simp)
    · rw [halt] at hreg
      have : p' = selfPid := by
        cases hreg
        rfl
      rw [this] at hdead
      rw [hself] at hdead
      exact absurd hdead (by simp)
  · constructor
    · intro h
      cases hb : registry baseName with
      | absent => exact Or.inl rfl
      | malformed => exact Or.inr (Or.inl rfl)
      | reg p sid =>
        by_cases hc : (!alive p || p == selfPid) = true
        · refine Or.inr (Or.inr ⟨p, sid, rfl, ?_⟩)
          rcases Bool.or_eq_true_iff.mp hc with hd | ho
          · left
            cases hav : alive p
            · rfl
            · rw [hav] at hd; exact absurd hd (by simp)
          · right
            simpa using ho
        · exfalso
          have hred : findAvailableName alive selfPid registry baseName =
              findAltName alive registry baseName
                ((List.range 98).map (fun k => k + 2)) := by
            simp only [findAvailableName, hb]
            rw [if_neg hc]
          rw [hred] at h
          rcases findAltName_available alive registry baseName _ _ h with
            h2 | h2 | ⟨p', sid', hreg, hdead⟩
          · rw [hb] at h2; exact absurd h2 (by simp)
          · rw [hb] at h2; exact absurd h2 (by simp)
          · rw [hb] at hreg
            have hpp : p' = p := by
              cases hreg
              rfl
            rw [hpp] at hdead
            have : (!alive p || p == selfPid) = true := by
              rw [hdead]
              rfl
            exact absurd this hc
    · intro h
      rcases h with h | h | ⟨p, sid, hb, hd⟩
      · simp [findAvailableName, h]
      · simp [findAvailableName, h]
      · have hc : (!alive p || p == selfPid) = true := by
          rcases hd with hdead | hown
          · rw [hdead]; rfl
          · rw [hown]; simp
        simp only [findAvailableName, hb]
        rw [if_pos hc]

/-- Witness for C10: a process whose own live PID sits under the base name
reclaims the base name. -/
theorem findAvailableName_own_pid_witness :
    findAvailableName (fun _ => true) 42
      (fun n => if n = "Swift" then RegFile.reg 42 "s" else RegFile.absent)
      "Swift" = some "Swift" :=
  (findAvailableName_own_pid (fun _ => true) 42
    (fun n => if n = "Swift" then RegFile.reg 42 "s" else RegFile.absent)
    "Swift").1 "s" (by decide)

end PiMessenger


